import Mathlib

/-!
Shallow embedding of the oqab filesystem search engine (Rust) and proofs
about its specification claims.

Source files embedded:
- src/filters/mod.rs        (FilterResult, Filter trait)
- src/filters/name.rs       (NameFilter)
- src/filters/extension.rs  (ExtensionFilter)
- src/filters/size.rs       (SizeFilter)
- src/filters/date.rs       (DateFilter)
- src/core/registry.rs      (FilterRegistry)
- src/core/observer.rs      (TrackingObserver and its Clone impl)
- src/core/finder.rs        (process_directory, FileFinder::find,
                             collect_files_direct, the worker-pool consumers)
- src/core/worker.rs        (WorkerPool::complete and the worker loop body)
- src/commands/grep.rs      (GrepCommand::search_file, process_files)

Modelling conventions:
- A path is modelled together with the answers the OS would give for it:
  its components, whether path.is_dir() holds, and the result of
  std::fs::metadata (none = the call fails).  Strings are assumed valid
  UTF-8, so OsStr::to_str never fails in the model.
- The filesystem visible to a traversal is an inductive tree of entries;
  symbolic links are represented with their already-resolved target
  (a broken or unreadable link is FSEntry.symlinkBroken).  read_dir is
  assumed to succeed on directories that appear in the tree; a read_dir
  failure in the code only prunes that subtree and is not needed by any
  claim.
- Machine integers (u64, usize, i64) are modelled as Nat / Int; no
  arithmetic in the embedded code can overflow at realistic sizes and no
  claim depends on wrap-around.
- Locks, atomics and real concurrency are serialised: the tracking
  observer is pure state threaded through events, and the worker loop is
  modelled as a step function on the two queues.  Mutex poisoning never
  happens in the model.
-/

/-- FilterResult from src/filters/mod.rs: Accept, Reject, Prune. -/
inductive FilterResult where
  | accept
  | reject
  | prune
deriving DecidableEq, Repr

/-- The part of std::fs::Metadata the embedded filters read: len() and
modified() as seconds since the Unix epoch.  modified = none models
metadata.modified() returning Err; a negative value models a time before
the epoch (so duration_since(UNIX_EPOCH) returns Err). -/
structure Metadata where
  len : Nat
  modified : Option Int
deriving DecidableEq, Repr

/-- A filesystem path together with the answers the OS gives for it:
path.is_dir() and std::fs::metadata(path) (none = the call fails). -/
structure FilePath where
  components : List String
  isDir : Bool
  metadata : Option Metadata
deriving DecidableEq, Repr

/-- Path::file_name(): the terminal path component. -/
def FilePath.fileName (p : FilePath) : Option String :=
  p.components.getLast?

/-- Rust Path::extension() semantics on a file name: the portion after the
last dot, provided that dot is not the leading character; none when there
is no dot or the only dot is leading (e.g. ".bashrc"). -/
def rustExtension (name : String) : Option String :=
  let cs := name.toList
  let dots := (List.range cs.length).filter fun i => cs.getD i ' ' == '.'
  match dots.getLast? with
  | some i => if 0 < i then some (String.mk (cs.drop (i + 1))) else none
  | none => none

/-- Path::extension() of a path: the extension of its file name. -/
def FilePath.extension (p : FilePath) : Option String :=
  p.fileName.bind rustExtension

/-- The Filter trait: filter(path) -> FilterResult.  Named PathFilter here
because Filter is already taken by the ambient library. -/
abbrev PathFilter := FilePath → FilterResult

/-- NameFilter from src/filters/name.rs. -/
structure NameFilter where
  name : String
deriving DecidableEq

/-- NameFilter::new. -/
def NameFilter.new (name : String) : NameFilter :=
  ⟨name⟩

/-- NameFilter::filter (src/filters/name.rs lines 19-39): directories
Accept; otherwise Accept exactly when the file name equals the stored
name, or the stored name is the wildcard "*"; a path without a file name
is Rejected. -/
def NameFilter.filter (self : NameFilter) (path : FilePath) : FilterResult :=
  if path.isDir then FilterResult.accept
  else
    match path.fileName with
    | some name_str =>
        if name_str = self.name ∨ self.name = "*" then FilterResult.accept
        else FilterResult.reject
    | none => FilterResult.reject

/-- ExtensionFilter from src/filters/extension.rs. -/
structure ExtensionFilter where
  extension : String
deriving DecidableEq

/-- ExtensionFilter::new: trim_start_matches removes every leading dot. -/
def ExtensionFilter.new (ext : String) : ExtensionFilter :=
  ⟨String.mk (ext.toList.dropWhile fun c => c == '.')⟩

/-- ExtensionFilter::filter (src/filters/extension.rs lines 21-42):
directories Accept; a file with an extension Accepts when that extension
equals the stored one exactly (case-sensitive) or the stored one is "*";
a file without an extension Accepts only when the stored extension is
empty. -/
def ExtensionFilter.filter (self : ExtensionFilter) (path : FilePath) : FilterResult :=
  if path.isDir then FilterResult.accept
  else
    match path.extension with
    | some ext =>
        if ext = self.extension ∨ self.extension = "*" then FilterResult.accept
        else FilterResult.reject
    | none =>
        if self.extension = "" then FilterResult.accept
        else FilterResult.reject

/-- SizeFilter from src/filters/size.rs. -/
structure SizeFilter where
  min_size : Option Nat
  max_size : Option Nat
deriving DecidableEq

/-- SizeFilter::min. -/
def SizeFilter.min (size : Nat) : SizeFilter :=
  ⟨some size, none⟩

/-- SizeFilter::max. -/
def SizeFilter.max (size : Nat) : SizeFilter :=
  ⟨none, some size⟩

/-- SizeFilter::range. -/
def SizeFilter.range (mn mx : Nat) : SizeFilter :=
  ⟨some mn, some mx⟩

/-- SizeFilter::filter (src/filters/size.rs lines 33-59): reads metadata
(Reject when unreadable), then rejects sizes below min_size or above
max_size.  Note there is no is_dir special case in the source: a
directory is sized like any other path. -/
def SizeFilter.filter (self : SizeFilter) (path : FilePath) : FilterResult :=
  match path.metadata with
  | none => FilterResult.reject
  | some metadata =>
    let file_size := metadata.len
    if (match self.min_size with
        | some min_size => decide (file_size < min_size)
        | none => false) then FilterResult.reject
    else if (match self.max_size with
        | some max_size => decide (file_size > max_size)
        | none => false) then FilterResult.reject
    else FilterResult.accept

/-- DateFilter from src/filters/date.rs: bounds in epoch seconds. -/
structure DateFilter where
  newer_than : Option Int
  older_than : Option Int
deriving DecidableEq

/-- DateFilter::filter (src/filters/date.rs lines 70-106): reads metadata
(Reject when unreadable), reads modified (Reject on error, including a
pre-epoch time that makes duration_since fail), then rejects files
modified before newer_than or after older_than.  As with SizeFilter there
is no is_dir special case in the source. -/
def DateFilter.filter (self : DateFilter) (path : FilePath) : FilterResult :=
  match path.metadata with
  | none => FilterResult.reject
  | some metadata =>
    match metadata.modified with
    | none => FilterResult.reject
    | some t =>
      if t < 0 then FilterResult.reject
      else
        let modified_secs := t
        if (match self.newer_than with
            | some newer_than => decide (modified_secs < newer_than)
            | none => false) then FilterResult.reject
        else if (match self.older_than with
            | some older_than => decide (modified_secs > older_than)
            | none => false) then FilterResult.reject
        else FilterResult.accept

/-- FilterRegistry (src/core/registry.rs line 18): filters is a
HashMap(String, Box(dyn Filter)), modelled as an association list whose
list order is the insertion order.  A Rust HashMap does NOT iterate in
insertion order; its iteration order is unspecified, so apply_all below
is stated over an arbitrary permutation of the stored values. -/
abbrev FilterRegistry := List (String × PathFilter)

/-- FilterRegistry::new. -/
def FilterRegistry.new : FilterRegistry := []

/-- FilterRegistry::register: HashMap::insert semantics, replacing the
value when the key is already present. -/
def FilterRegistry.register (self : FilterRegistry) (name : String) (f : PathFilter) :
    FilterRegistry :=
  if self.any fun kv => kv.1 == name then
    self.map fun kv => if kv.1 == name then (name, f) else kv
  else self ++ [(name, f)]

/-- The multiset of stored filters, listed here in insertion order. -/
def FilterRegistry.values (self : FilterRegistry) : List PathFilter :=
  self.map Prod.snd

/-- An iteration order the HashMap may present to self.filters.values():
some permutation of the stored values. -/
def IterationOrder (self : FilterRegistry) (order : List PathFilter) : Prop :=
  List.Perm order (FilterRegistry.values self)

/-- FilterRegistry::apply_all (src/core/registry.rs lines 58-66) applied
along one iteration order of the map values: return the first non-Accept
result, Accept when every filter Accepts (in particular when the list is
empty). -/
def apply_all (filters : List PathFilter) (path : FilePath) : FilterResult :=
  match filters with
  | [] => FilterResult.accept
  | f :: rest =>
    let result := f path
    if result ≠ FilterResult.accept then result
    else apply_all rest path

/-- First filter in the list whose result on the path is not Accept,
evaluated; Accept when there is none. -/
def firstNonAccept (filters : List PathFilter) (path : FilePath) : FilterResult :=
  match filters.find? fun f => decide (f path ≠ FilterResult.accept) with
  | some f => f path
  | none => FilterResult.accept

/-- TrackingObserver from src/core/observer.rs lines 135-222: atomic file
and directory counters plus a mutex-protected list of found files,
serialised into pure state. -/
structure TrackingObserver where
  files_count : Nat
  dirs_count : Nat
  found_files : List FilePath
deriving DecidableEq

/-- TrackingObserver::new. -/
def TrackingObserver.new : TrackingObserver :=
  ⟨0, 0, []⟩

/-- TrackingObserver::file_found (lines 186-197): increment the counter
and push the path onto found_files. -/
def TrackingObserver.file_found (self : TrackingObserver) (file_path : FilePath) :
    TrackingObserver :=
  { self with
      files_count := self.files_count + 1,
      found_files := self.found_files ++ [file_path] }

/-- TrackingObserver::directory_processed. -/
def TrackingObserver.directory_processed (self : TrackingObserver) : TrackingObserver :=
  { self with dirs_count := self.dirs_count + 1 }

/-- The Clone impl for TrackingObserver (src/core/observer.rs lines
209-222): start from a fresh observer, copy each counter when it is
positive, and leave found_files empty. -/
def TrackingObserver.clone (self : TrackingObserver) : TrackingObserver :=
  let new_observer := TrackingObserver.new
  let new_observer :=
    if self.files_count > 0 then { new_observer with files_count := self.files_count }
    else new_observer
  let new_observer :=
    if self.dirs_count > 0 then { new_observer with dirs_count := self.dirs_count }
    else new_observer
  new_observer

/-- FinderConfig from src/core/finder.rs lines 34-42. -/
structure FinderConfig where
  num_threads : Nat
  follow_links : Bool
  max_depth : Option Nat
deriving DecidableEq, Repr

/-- The TraversalStrategy trait (src/core/traversal.rs): two guards,
should_process_directory and should_process_file. -/
structure TraversalStrategy where
  should_process_directory : FilePath → Bool
  should_process_file : FilePath → Bool

/-- One directory entry as the traversal observes it: a regular file, a
subdirectory (carrying its entries, standing for what read_dir would
return), or a symbolic link given with its already-resolved target.
symlinkBroken covers a failing read_link as well as a failing
fs::metadata on the target; symlinkFile / symlinkDir carry the resolved
target path and the answers the OS gives for the target. -/
inductive FSEntry where
  | file (name : String) (meta : Option Metadata)
  | dir (name : String) (meta : Option Metadata) (entries : List FSEntry)
  | symlinkFile (name : String) (target_path : List String) (target_meta : Option Metadata)
  | symlinkDir (name : String) (target_path : List String) (target_meta : Option Metadata)
      (target_entries : List FSEntry)
  | symlinkBroken (name : String)

/-- The depth cap test at the top of process_directory (src/core/finder.rs
lines 271-276): with max_depth = Some(d) the directory is abandoned when
current_depth.len() is at least d. -/
def depth_exceeded (config : FinderConfig) (current_depth : List String) : Bool :=
  match config.max_depth with
  | some max_depth => decide (current_depth.length ≥ max_depth)
  | none => false

/-- The entry loop of process_directory (src/core/finder.rs lines
288-387), one recursive function over the listed entries.  For a
subdirectory (and, with follow_links, a symlink-to-directory) the source
recursively calls process_directory after pushing the entry name onto
current_depth; that call is inlined here (its two leading checks followed
by its own entry loop) so that the recursion is structural; the lemma
process_entries_dir_step below re-states the inlined branch as the
process_directory call that appears in the source.  A regular file (and,
with follow_links, a symlink-to-file target) is notified exactly when
should_process_file holds and apply_all returns Accept; with
follow_links = false symlinks are skipped altogether.  The returned list
is the sequence of notify_file_found events. -/
def process_entries (config : FinderConfig) (ts : TraversalStrategy)
    (reg : List PathFilter) :
    List String → List FSEntry → List String → List FilePath
  | _, [], _ => []
  | dirC, FSEntry.file name meta :: rest, depth =>
      (let path : FilePath := ⟨dirC ++ [name], false, meta⟩
       if ts.should_process_file path then
         if apply_all reg path = FilterResult.accept then [path] else []
       else []) ++ process_entries config ts reg dirC rest depth
  | dirC, FSEntry.dir name meta es :: rest, depth =>
      (let sub_path : FilePath := ⟨dirC ++ [name], true, meta⟩
       if depth_exceeded config (depth ++ [name]) then []
       else if !ts.should_process_directory sub_path then []
       else process_entries config ts reg (dirC ++ [name]) es (depth ++ [name])) ++
      process_entries config ts reg dirC rest depth
  | dirC, FSEntry.symlinkFile _ tpath tmeta :: rest, depth =>
      (if config.follow_links then
         let target : FilePath := ⟨tpath, false, tmeta⟩
         if ts.should_process_file target then
           if apply_all reg target = FilterResult.accept then [target] else []
         else []
       else []) ++ process_entries config ts reg dirC rest depth
  | dirC, FSEntry.symlinkDir name tpath tmeta tes :: rest, depth =>
      (if config.follow_links then
         let target : FilePath := ⟨tpath, true, tmeta⟩
         if depth_exceeded config (depth ++ [name]) then []
         else if !ts.should_process_directory target then []
         else process_entries config ts reg tpath tes (depth ++ [name])
       else []) ++ process_entries config ts reg dirC rest depth
  | dirC, FSEntry.symlinkBroken _ :: rest, depth =>
      process_entries config ts reg dirC rest depth

/-- process_directory (src/core/finder.rs lines 263-390): abandon the
directory when the depth cap is reached or the traversal strategy
declines it, otherwise walk its entries.  Returns the sequence of
notify_file_found events. -/
def process_directory (config : FinderConfig) (ts : TraversalStrategy)
    (reg : List PathFilter) (dir_path : FilePath) (entries : List FSEntry)
    (current_depth : List String) : List FilePath :=
  if depth_exceeded config current_depth then []
  else if !ts.should_process_directory dir_path then []
  else process_entries config ts reg dir_path.components entries current_depth

/-- The file consumer closure built in FileFinder::find for the worker
pool (src/core/finder.rs lines 143-152): notify observers exactly when
apply_all returns Accept.  Returns the notify_file_found events. -/
def file_consumer (reg : List PathFilter) (file_path : FilePath) : List FilePath :=
  if apply_all reg file_path = FilterResult.accept then [file_path] else []

/-- FileFinder::find (src/core/finder.rs lines 79-200): validate the
root, then either run process_directory single-threaded or start the
worker pool; in pool mode the root directory is submitted once and the
directory consumer closure runs the same process_directory with a fresh
empty depth vector, so both branches produce the same event sequence.
The results are recovered from the tracking observer, which is assumed
registered (the registry path used by every search entry point). -/
def FileFinder.find (config : FinderConfig) (ts : TraversalStrategy)
    (reg : List PathFilter) (root_exists : Bool) (root_dir : FilePath)
    (root_entries : List FSEntry) : Except String (List FilePath) :=
  if !root_exists then Except.error "Root directory does not exist"
  else if !root_dir.isDir then Except.error "Path is not a directory"
  else
    let events :=
      if config.num_threads ≤ 1 then
        process_directory config ts reg root_dir root_entries []
      else
        process_directory config ts reg root_dir root_entries []
    let tracking := events.foldl TrackingObserver.file_found TrackingObserver.new
    Except.ok tracking.found_files

/-- The entry loop of FileFinder::collect_files_direct (src/core/finder.rs
lines 223-256): files passing the traversal guard and apply_all are
collected; subdirectories recurse with current_depth + 1 (the recursive
call is inlined as with process_entries); symlink entries are neither
is_dir nor is_file, so they are skipped.  max_depth is the caller-supplied
cap (config.max_depth.unwrap_or(usize::MAX)). -/
def collect_entries (ts : TraversalStrategy) (reg : List PathFilter) :
    List String → List FSEntry → Nat → Nat → List FilePath
  | _, [], _, _ => []
  | dirC, FSEntry.dir name meta es :: rest, max_depth, current_depth =>
      (let sub_path : FilePath := ⟨dirC ++ [name], true, meta⟩
       if decide (current_depth + 1 ≥ max_depth) ||
          !ts.should_process_directory sub_path then []
       else collect_entries ts reg (dirC ++ [name]) es max_depth (current_depth + 1)) ++
      collect_entries ts reg dirC rest max_depth current_depth
  | dirC, FSEntry.file name meta :: rest, max_depth, current_depth =>
      (let path : FilePath := ⟨dirC ++ [name], false, meta⟩
       if ts.should_process_file path &&
          decide (apply_all reg path = FilterResult.accept) then [path] else []) ++
      collect_entries ts reg dirC rest max_depth current_depth
  | dirC, _ :: rest, max_depth, current_depth =>
      collect_entries ts reg dirC rest max_depth current_depth

/-- collect_files_direct (src/core/finder.rs lines 208-259): stop when
current_depth has reached max_depth or the traversal strategy declines
the directory, otherwise walk its entries. -/
def collect_files_direct (ts : TraversalStrategy) (reg : List PathFilter)
    (dir_path : FilePath) (entries : List FSEntry) (max_depth current_depth : Nat) :
    List FilePath :=
  if decide (current_depth ≥ max_depth) || !ts.should_process_directory dir_path then []
  else collect_entries ts reg dir_path.components entries max_depth current_depth

/-- WorkerMessage from src/core/worker.rs lines 16-23. -/
inductive WorkerMessage where
  | directory (path : List String)
  | file (path : List String)
  | done
deriving DecidableEq, Repr

/-- The two mpsc channels of the pool, each a FIFO queue: send appends at
the back, try_recv removes from the front. -/
structure Channels where
  dirQ : List WorkerMessage
  fileQ : List WorkerMessage
deriving DecidableEq, Repr

/-- WorkerPool::complete (src/core/worker.rs lines 201-212): send one Done
message onto the directory channel and one onto the file channel.  The
worker count plays no role. -/
def WorkerPool.complete (ch : Channels) : Channels :=
  ⟨ch.dirQ ++ [WorkerMessage.done], ch.fileQ ++ [WorkerMessage.done]⟩

/-- Result of one iteration of the worker loop: the queues afterwards,
whether the loop was exited, and the work items handed to the directory
and file consumers during the iteration. -/
structure StepResult where
  channels : Channels
  exited : Bool
  dirs_consumed : List (List String)
  files_consumed : List (List String)
deriving DecidableEq, Repr

/-- Second half of a worker loop iteration (src/core/worker.rs lines
109-147): try_recv on the file channel; a File is consumed, a misrouted
Directory is re-sent onto the directory channel, Done is forwarded onto
the file channel and the loop exits. -/
def worker_file_phase (ch : Channels) (dirs : List (List String)) : StepResult :=
  match ch.fileQ with
  | WorkerMessage.done :: rest =>
      ⟨⟨ch.dirQ, rest ++ [WorkerMessage.done]⟩, true, dirs, []⟩
  | WorkerMessage.file f :: rest =>
      ⟨⟨ch.dirQ, rest⟩, false, dirs, [f]⟩
  | WorkerMessage.directory d :: rest =>
      ⟨⟨ch.dirQ ++ [WorkerMessage.directory d], rest⟩, false, dirs, []⟩
  | [] => ⟨ch, false, dirs, []⟩

/-- One iteration of the worker loop (src/core/worker.rs lines 66-153):
try_recv on the directory channel first (a Directory is consumed, a
misrouted File is re-sent onto the file channel, Done is forwarded onto
the directory channel and the loop exits immediately, skipping the file
phase), then the file phase.  The idle sleep and the stopped flag are
timing concerns outside this model. -/
def worker_step (ch : Channels) : StepResult :=
  match ch.dirQ with
  | WorkerMessage.done :: rest =>
      ⟨⟨rest ++ [WorkerMessage.done], ch.fileQ⟩, true, [], []⟩
  | WorkerMessage.directory d :: rest =>
      worker_file_phase ⟨rest, ch.fileQ⟩ [d]
  | WorkerMessage.file f :: rest =>
      worker_file_phase ⟨rest, ch.fileQ ++ [WorkerMessage.file f]⟩ []
  | [] => worker_file_phase ch []

/-- How GrepCommand opens one file (src/commands/grep.rs lines 39-52):
the lines on success (none marks a line whose read failed and is
skipped), a silently-skipped permission error, or another I/O error. -/
inductive OpenResult where
  | ok (lines : List (Option String))
  | permissionDenied
  | ioError (msg : String)

/-- The grep-relevant part of FileSearchConfig consumed by process_files. -/
structure GrepConfig where
  files_with_matches : Bool
  line_number : Bool
  show_progress : Bool
deriving DecidableEq, Repr

/-- GrepCommand::search_file (src/commands/grep.rs lines 39-74): open the
file (permission denied yields no matches, other errors propagate), then
enumerate the line reads, skip failed ones, and record (1-based line
number, line) for each line the regex matches.  The compiled regex is
abstracted as the predicate rmatch. -/
def search_file (rmatch : String → Bool) (view : OpenResult) :
    Except String (List (Nat × String)) :=
  match view with
  | OpenResult.permissionDenied => Except.ok []
  | OpenResult.ioError msg => Except.error msg
  | OpenResult.ok lines =>
      Except.ok (lines.enum.filterMap fun p =>
        match p.2 with
        | none => none
        | some line => if rmatch line then some (p.1 + 1, line) else none)

/-- Display form of a path, as println would show it. -/
def display (path : List String) : String :=
  String.intercalate "/" path

/-- The loop of GrepCommand::process_files (src/commands/grep.rs lines
86-111), collecting the stdout lines: for each file in the input list (in
order), search it; when it has matches, files-with-matches mode prints
the bare path, per-line mode prints the path header, then every matching
line (with its number when line_number is set), then a blank line.
Nothing tracks which paths were already printed. -/
def process_files_loop (cfg : GrepConfig) (rmatch : String → Bool)
    (view : List String → OpenResult) :
    List (List String) → Except String (List String)
  | [] => Except.ok []
  | file_path :: rest =>
      match search_file rmatch (view file_path) with
      | Except.error e => Except.error e
      | Except.ok ms =>
          let out :=
            if ms.isEmpty then []
            else if cfg.files_with_matches then [display file_path]
            else display file_path ::
              (ms.map fun m =>
                if cfg.line_number then toString m.1 ++ ": " ++ m.2 else m.2) ++ [""]
          match process_files_loop cfg rmatch view rest with
          | Except.error e => Except.error e
          | Except.ok restOut => Except.ok (out ++ restOut)

/-- GrepCommand::process_files (src/commands/grep.rs lines 76-123): the
loop above followed, when show_progress is set, by the summary block;
the summary text (timings and counters) is irrelevant to every claim and
is passed in opaquely. -/
def process_files (cfg : GrepConfig) (rmatch : String → Bool)
    (view : List String → OpenResult) (files : List (List String))
    (summary : List String) : Except String (List String) :=
  match process_files_loop cfg rmatch view files with
  | Except.error e => Except.error e
  | Except.ok out =>
      Except.ok (out ++ if cfg.show_progress then summary else [])

/-- A filter accepting every path (used to instantiate theorems). -/
def accept_all_filter : PathFilter := fun _ => FilterResult.accept

/-- A filter rejecting every path. -/
def reject_all_filter : PathFilter := fun _ => FilterResult.reject

/-- A filter pruning every path. -/
def prune_all_filter : PathFilter := fun _ => FilterResult.prune

/-- A registry holding reject_all_filter under "a" (inserted first) and
prune_all_filter under "b" (inserted second). -/
def regAB : FilterRegistry :=
  FilterRegistry.register
    (FilterRegistry.register FilterRegistry.new "a" reject_all_filter)
    "b" prune_all_filter

/-- A traversal strategy that declines nothing. -/
def ts_all : TraversalStrategy := ⟨fun _ => true, fun _ => true⟩

/-- A regular file named main.rs. -/
def path_main_rs : FilePath := ⟨["main.rs"], false, none⟩

/-- A regular file whose extension differs from rs only in case. -/
def path_a_big_rs : FilePath := ⟨["a.RS"], false, none⟩

/-- A directory whose metadata reports 40 bytes (an empty directory on
tmpfs) modified at epoch second 1000000. -/
def dir_small : FilePath := ⟨["tmp", "d"], true, some ⟨40, some 1000000⟩⟩

/-- Single-threaded finder configuration with the given depth cap. -/
def cfg_depth (md : Option Nat) : FinderConfig := ⟨1, false, md⟩

/-- Root directory path used in concrete runs. -/
def root_fp : FilePath := ⟨["root"], true, none⟩

/-- The ExtensionFilter for rs, as a registry value. -/
def ext_rs_filter : PathFilter := fun p => ExtensionFilter.filter (ExtensionFilter.new "rs") p

/-- Grep configuration: files-with-matches mode, no progress output. -/
def grep_cfg_files : GrepConfig := ⟨true, false, false⟩

/-- Grep configuration: per-line mode with line numbers, no progress. -/
def grep_cfg_lines : GrepConfig := ⟨false, true, false⟩

/-- The path x.txt as a component list. -/
def xt_path : List String := ["x.txt"]

/-- A file table where every path opens to the single line hello world. -/
def view_hello : List String → OpenResult := fun _ => OpenResult.ok [some "hello world"]

/-- A regex abstraction matching exactly the line hello world. -/
def rm_world : String → Bool := fun s => s == "hello world"

/-- search_file result with errors flattened to no matches; process_files
only reaches the non-error case under the hypotheses used below. -/
def ok_matches (rmatch : String → Bool) (view : OpenResult) : List (Nat × String) :=
  match search_file rmatch view with
  | Except.ok ms => ms
  | Except.error _ => []

/-- Whether search_file succeeds on this open result (everything except
the propagated I/O error). -/
def search_succeeds (view : OpenResult) : Bool :=
  match view with
  | OpenResult.ioError _ => false
  | _ => true

/-- The stdout block process_files emits for one entry of its input list:
nothing without matches; the bare path in files-with-matches mode; the
path header, the matching lines, and a blank line in per-line mode. -/
def grep_block (cfg : GrepConfig) (rmatch : String → Bool)
    (view : List String → OpenResult) (file_path : List String) : List String :=
  let ms := ok_matches rmatch (view file_path)
  if ms.isEmpty then []
  else if cfg.files_with_matches then [display file_path]
  else display file_path ::
    (ms.map fun m => if cfg.line_number then toString m.1 ++ ": " ++ m.2 else m.2) ++ [""]

/-- The files a directory-children-only scan gathers: what
process_entries emits when no descent can happen.  Only regular files
and (with follow_links) symlink-to-file targets can contribute. -/
def direct_files (config : FinderConfig) (ts : TraversalStrategy)
    (reg : List PathFilter) (dirC : List String) (entries : List FSEntry) :
    List FilePath :=
  List.flatten (entries.map fun e =>
    match e with
    | FSEntry.file name meta =>
        let path : FilePath := ⟨dirC ++ [name], false, meta⟩
        if ts.should_process_file path then
          if apply_all reg path = FilterResult.accept then [path] else []
        else []
    | FSEntry.symlinkFile _ tpath tmeta =>
        if config.follow_links then
          let target : FilePath := ⟨tpath, false, tmeta⟩
          if ts.should_process_file target then
            if apply_all reg target = FilterResult.accept then [target] else []
          else []
        else []
    | _ => [])

/-- Helper: apply_all returns Accept exactly when every filter in the
list Accepts the path. -/
theorem apply_all_eq_accept_iff (filters : List PathFilter) (path : FilePath) :
    apply_all filters path = FilterResult.accept ↔
      ∀ f ∈ filters, f path = FilterResult.accept := by
  induction filters with
  | nil => simp [apply_all]
  | cons f rest ih =>
    by_cases h : f path = FilterResult.accept
    · simp [apply_all, h, ih]
    · simp only [apply_all, if_pos h, List.mem_cons]
      constructor
      · intro hc
        exact absurd hc h
      · intro hall
        exact absurd (hall f (Or.inl rfl)) h

/-- Helper: apply_all is the first non-Accept result along its list, in
list order. -/
theorem apply_all_eq_firstNonAccept (filters : List PathFilter) (path : FilePath) :
    apply_all filters path = firstNonAccept filters path := by
  induction filters with
  | nil => rfl
  | cons f rest ih =>
    by_cases h : f path = FilterResult.accept
    · simp [apply_all, firstNonAccept, List.find?, h, ih]
    · simp [apply_all, firstNonAccept, List.find?, h]

/-- Helper: folding file_found over a list of paths appends those paths
to found_files and adds their number to files_count. -/
theorem foldl_file_found_spec (ps : List FilePath) (t : TrackingObserver) :
    (ps.foldl TrackingObserver.file_found t).found_files = t.found_files ++ ps ∧
    (ps.foldl TrackingObserver.file_found t).files_count = t.files_count + ps.length ∧
    (ps.foldl TrackingObserver.file_found t).dirs_count = t.dirs_count := by
  induction ps generalizing t with
  | nil => simp
  | cons p rest ih =>
    have h := ih (TrackingObserver.file_found t p)
    simp only [List.foldl_cons] at *
    refine ⟨?_, ?_, ?_⟩
    · rw [h.1]; simp [TrackingObserver.file_found]
    · rw [h.2.1]; simp [TrackingObserver.file_found]; omega
    · rw [h.2.2]; simp [TrackingObserver.file_found]

/-- Helper: clone copies both counters and empties found_files. -/
theorem clone_spec (t : TrackingObserver) :
    (TrackingObserver.clone t).files_count = t.files_count ∧
    (TrackingObserver.clone t).dirs_count = t.dirs_count ∧
    (TrackingObserver.clone t).found_files = [] := by
  unfold TrackingObserver.clone TrackingObserver.new
  by_cases hf : t.files_count > 0 <;> by_cases hd : t.dirs_count > 0 <;>
    simp [hf, hd] <;> omega

/-- Helper: every path emitted by the entry loop passed apply_all with
result Accept at the moment it was notified. -/
theorem process_entries_sound (config : FinderConfig) (ts : TraversalStrategy)
    (reg : List PathFilter) :
    ∀ (dirC : List String) (entries : List FSEntry) (depth : List String)
      (f : FilePath), f ∈ process_entries config ts reg dirC entries depth →
      apply_all reg f = FilterResult.accept := by
  intro dirC entries depth
  induction dirC, entries, depth using process_entries.induct config ts reg with
  | case1 dirC depth =>
    intro f hf
    simp [process_entries] at hf
  | case2 dirC name meta rest depth ih =>
    intro f hf
    simp only [process_entries, List.mem_append] at hf
    rcases hf with h | h
    · split_ifs at h with h1 h2
      · rw [List.mem_singleton] at h; subst h; exact h2
      · exact absurd h (List.not_mem_nil f)
      · exact absurd h (List.not_mem_nil f)
    · exact ih f h
  | case3 dirC name meta es rest depth ih2 ih1 =>
    intro f hf
    simp only [process_entries, List.mem_append] at hf
    rcases hf with h | h
    · split_ifs at h with h1 h2
      · exact absurd h (List.not_mem_nil f)
      · exact absurd h (List.not_mem_nil f)
      · exact ih2 f h
    · exact ih1 f h
  | case4 dirC name tpath tmeta rest depth ih =>
    intro f hf
    simp only [process_entries, List.mem_append] at hf
    rcases hf with h | h
    · split_ifs at h with h1 h2 h3
      · rw [List.mem_singleton] at h; subst h; exact h3
      · exact absurd h (List.not_mem_nil f)
      · exact absurd h (List.not_mem_nil f)
      · exact absurd h (List.not_mem_nil f)
    · exact ih f h
  | case5 dirC name tpath tmeta tes rest depth ih2 ih1 =>
    intro f hf
    simp only [process_entries, List.mem_append] at hf
    rcases hf with h | h
    · split_ifs at h with h1 h2 h3
      · exact absurd h (List.not_mem_nil f)
      · exact absurd h (List.not_mem_nil f)
      · exact ih2 f h
      · exact absurd h (List.not_mem_nil f)
    · exact ih1 f h
  | case6 dirC name rest depth ih =>
    intro f hf
    simp only [process_entries] at hf
    exact ih f hf

/-- Helper: the inlined subdirectory branch of process_entries is the
recursive process_directory call made by the source. -/
theorem process_entries_dir_step (config : FinderConfig) (ts : TraversalStrategy)
    (reg : List PathFilter) (dirC : List String) (name : String)
    (meta : Option Metadata) (es rest : List FSEntry) (depth : List String) :
    process_entries config ts reg dirC (FSEntry.dir name meta es :: rest) depth =
      process_directory config ts reg ⟨dirC ++ [name], true, meta⟩ es (depth ++ [name]) ++
      process_entries config ts reg dirC rest depth := by
  simp only [process_entries, process_directory]

/-- Helper: the inlined symlink-to-directory branch of process_entries is
the recursive process_directory call made by the source, guarded by
follow_links. -/
theorem process_entries_symlink_dir_step (config : FinderConfig)
    (ts : TraversalStrategy) (reg : List PathFilter) (dirC : List String)
    (name : String) (tpath : List String) (tmeta : Option Metadata)
    (tes rest : List FSEntry) (depth : List String) :
    process_entries config ts reg dirC
        (FSEntry.symlinkDir name tpath tmeta tes :: rest) depth =
      (if config.follow_links then
        process_directory config ts reg ⟨tpath, true, tmeta⟩ tes (depth ++ [name])
       else []) ++
      process_entries config ts reg dirC rest depth := by
  simp only [process_entries, process_directory]

/-- Helper: soundness extends to process_directory. -/
theorem process_directory_sound (config : FinderConfig) (ts : TraversalStrategy)
    (reg : List PathFilter) (dir_path : FilePath) (entries : List FSEntry)
    (current_depth : List String) :
    ∀ f ∈ process_directory config ts reg dir_path entries current_depth,
      apply_all reg f = FilterResult.accept := by
  intro f hf
  unfold process_directory at hf
  split_ifs at hf with h1 h2
  · exact absurd hf (List.not_mem_nil f)
  · exact absurd hf (List.not_mem_nil f)
  · exact process_entries_sound config ts reg _ _ _ f hf

/-- Helper: every path in the list FileFinder::find returns passed
apply_all with result Accept. -/
theorem find_sound (config : FinderConfig) (ts : TraversalStrategy)
    (reg : List PathFilter) (root_exists : Bool) (root_dir : FilePath)
    (root_entries : List FSEntry) (res : List FilePath) :
    FileFinder.find config ts reg root_exists root_dir root_entries =
      Except.ok res →
    ∀ f ∈ res, apply_all reg f = FilterResult.accept := by
  intro hfind f hf
  unfold FileFinder.find at hfind
  rw [ite_self] at hfind
  split_ifs at hfind with h1 h2
  · simp only [Except.ok.injEq] at hfind
    subst hfind
    rw [(foldl_file_found_spec _ _).1] at hf
    simp only [TrackingObserver.new, List.nil_append] at hf
    exact process_directory_sound config ts reg root_dir root_entries [] f hf

/-- Claim C1: soundness of results.  For every search run of
FileFinder::find (the single-threaded recursive descent; in worker-pool
mode the directory consumer runs the same process_directory and the file
consumer is covered by the second conjunct) and every file path f in the
returned list, every predicate registered in the FilterRegistry returns
Accept on f at the moment f is recorded by the tracking observer,
whatever iteration order the registry HashMap presents. -/
theorem results_sound :
    (∀ (config : FinderConfig) (ts : TraversalStrategy) (r : FilterRegistry)
       (order : List PathFilter) (root_exists : Bool) (root_dir : FilePath)
       (root_entries : List FSEntry) (res : List FilePath),
       IterationOrder r order →
       FileFinder.find config ts order root_exists root_dir root_entries =
         Except.ok res →
       ∀ f ∈ res, ∀ flt ∈ FilterRegistry.values r, flt f = FilterResult.accept) ∧
    (∀ (r : FilterRegistry) (order : List PathFilter) (p f : FilePath),
       IterationOrder r order → f ∈ file_consumer order p →
       ∀ flt ∈ FilterRegistry.values r, flt f = FilterResult.accept) := by
  constructor
  · intro config ts r order root_exists root_dir root_entries res hperm hfind f hf
      flt hflt
    have hacc : apply_all order f = FilterResult.accept :=
      find_sound config ts order root_exists root_dir root_entries res hfind f hf
    exact (apply_all_eq_accept_iff order f).mp hacc flt (hperm.mem_iff.mpr hflt)
  · intro r order p f hperm hc flt hflt
    unfold file_consumer at hc
    split_ifs at hc with h
    · rw [List.mem_singleton] at hc
      subst hc
      exact (apply_all_eq_accept_iff order f).mp h flt (hperm.mem_iff.mpr hflt)
    · exact absurd hc (List.not_mem_nil f)

/-- Helper: on a valid root, find returns exactly the event list of
process_directory. -/
theorem find_events (config : FinderConfig) (ts : TraversalStrategy)
    (reg : List PathFilter) (root_dir : FilePath) (entries : List FSEntry)
    (h : root_dir.isDir = true) :
    FileFinder.find config ts reg true root_dir entries =
      Except.ok (process_directory config ts reg root_dir entries []) := by
  unfold FileFinder.find
  rw [ite_self]
  simp [h, (foldl_file_found_spec _ _).1, TrackingObserver.new]

/-- Witness for results_sound: a concrete single-threaded run over a root
containing one file a.rs, with the rs ExtensionFilter registered as the
only predicate; the theorem yields that the filter Accepts the recorded
path. -/
theorem results_sound_witness :
    ext_rs_filter ⟨["root", "a.rs"], false, none⟩ = FilterResult.accept := by
  have hvals : FilterRegistry.values
      (FilterRegistry.register FilterRegistry.new "ext" ext_rs_filter) =
      [ext_rs_filter] := rfl
  have hperm : IterationOrder
      (FilterRegistry.register FilterRegistry.new "ext" ext_rs_filter)
      [ext_rs_filter] := by
    unfold IterationOrder
    rw [hvals]
  have hfind : FileFinder.find (cfg_depth none) ts_all [ext_rs_filter] true root_fp
      [FSEntry.file "a.rs" none] =
      Except.ok [⟨["root", "a.rs"], false, none⟩] := by
    rw [find_events (cfg_depth none) ts_all [ext_rs_filter] root_fp
      [FSEntry.file "a.rs" none] rfl]
    rw [Except.ok.injEq]
    simp only [process_directory, process_entries]
    decide
  exact results_sound.1 (cfg_depth none) ts_all
    (FilterRegistry.register FilterRegistry.new "ext" ext_rs_filter)
    [ext_rs_filter] true root_fp [FSEntry.file "a.rs" none]
    [⟨["root", "a.rs"], false, none⟩] hperm hfind
    ⟨["root", "a.rs"], false, none⟩ (List.mem_singleton.mpr rfl)
    ext_rs_filter (by rw [hvals]; exact List.mem_singleton.mpr rfl)

/-- Claim C2 counterexample: the registry stores its predicates in a
HashMap, whose iteration order is unspecified rather than insertion
order.  For the registry that inserted reject_all_filter first and
prune_all_filter second, the iteration order putting prune_all_filter
first is a legal HashMap order, and apply_all along it returns Prune
while the insertion-order evaluation returns Reject — so apply_all does
not always return the first non-Accept result in insertion order. -/
theorem registry_insertion_order_counterexample :
    IterationOrder regAB [prune_all_filter, reject_all_filter] ∧
    apply_all [prune_all_filter, reject_all_filter] path_main_rs =
      FilterResult.prune ∧
    apply_all (FilterRegistry.values regAB) path_main_rs = FilterResult.reject ∧
    FilterResult.prune ≠ FilterResult.reject := by
  refine ⟨?_, rfl, rfl, by decide⟩
  have hvals : FilterRegistry.values regAB = [reject_all_filter, prune_all_filter] := rfl
  unfold IterationOrder
  rw [hvals]
  exact List.Perm.swap reject_all_filter prune_all_filter []

/-- Claim C2 (amended): the Predicate Registry evaluates its predicates
in the unspecified iteration order of its HashMap and returns the first
non-Accept result in that order; consequently it returns Accept exactly
when every registered predicate Accepts (independent of the order), and
when no predicates are registered it returns Accept for every path. -/
theorem registry_apply_all_spec :
    ∀ (r : FilterRegistry) (order : List PathFilter) (path : FilePath),
      IterationOrder r order →
      (apply_all order path = firstNonAccept order path) ∧
      (apply_all order path = FilterResult.accept ↔
        ∀ f ∈ FilterRegistry.values r, f path = FilterResult.accept) ∧
      (r = FilterRegistry.new → apply_all order path = FilterResult.accept) := by
  intro r order path hperm
  refine ⟨apply_all_eq_firstNonAccept order path, ?_, ?_⟩
  · rw [apply_all_eq_accept_iff]
    constructor
    · intro h f hf
      exact h f (hperm.mem_iff.mpr hf)
    · intro h f hf
      exact h f (hperm.mem_iff.mp hf)
  · intro hr
    subst hr
    have : order = [] := hperm.eq_nil
    rw [this]
    rfl

/-- Witness for registry_apply_all_spec at the empty registry: it
Accepts every path. -/
theorem registry_apply_all_spec_witness :
    apply_all [] path_main_rs = FilterResult.accept :=
  (registry_apply_all_spec FilterRegistry.new [] path_main_rs
    (List.Perm.refl [])).2.2 rfl

/-- Claim C3 counterexample: the configured pattern main occurs as a
substring of the file name main.rs of a regular-file path, yet
NameFilter::filter returns Reject — the filter is an exact match, not a
substring match. -/
theorem name_substring_counterexample :
    path_main_rs.isDir = false ∧
    path_main_rs.fileName = some "main.rs" ∧
    "main.rs" = "" ++ "main" ++ ".rs" ∧
    NameFilter.filter (NameFilter.new "main") path_main_rs =
      FilterResult.reject ∧
    FilterResult.reject ≠ FilterResult.accept := by
  refine ⟨rfl, rfl, rfl, by decide, by decide⟩

/-- Claim C3 (amended): the name predicate is an exact match against the
terminal path component — for every regular-file path, NameFilter::filter
returns Accept exactly when the file name equals the configured pattern
or the pattern is the wildcard star (a path without a file name is
Rejected); for every directory path it returns Accept. -/
theorem name_filter_exact_spec :
    ∀ (pat : String) (p : FilePath),
      (p.isDir = true →
        NameFilter.filter (NameFilter.new pat) p = FilterResult.accept) ∧
      (p.isDir = false →
        (NameFilter.filter (NameFilter.new pat) p = FilterResult.accept ↔
          ∃ n, p.fileName = some n ∧ (n = pat ∨ pat = "*"))) := by
  intro pat p
  constructor
  · intro hd
    simp [NameFilter.filter, hd]
  · intro hd
    simp only [NameFilter.filter, NameFilter.new, hd, Bool.false_eq_true, if_false]
    cases hn : p.fileName with
    | none =>
      simp
    | some n =>
      by_cases hm : n = pat ∨ pat = "*"
      · simp [hm]
      · simp only [hm, if_false]
        constructor
        · intro h
          exact absurd h (by decide)
        · rintro ⟨m, hm2, hcase⟩
          rw [Option.some.injEq] at hm2
          subst hm2
          exact absurd hcase hm

/-- Witness for name_filter_exact_spec: an exactly-matching file name is
Accepted. -/
theorem name_filter_exact_spec_witness :
    NameFilter.filter (NameFilter.new "a.txt") ⟨["a.txt"], false, none⟩ =
      FilterResult.accept :=
  ((name_filter_exact_spec "a.txt" ⟨["a.txt"], false, none⟩).2 rfl).mpr
    ⟨"a.txt", rfl, Or.inl rfl⟩

/-- Claim C4 counterexample: the regular file a.RS has extension RS,
equal to the configured extension rs up to case, yet ExtensionFilter
returns Reject — the comparison is case-sensitive, not case-insensitive. -/
theorem extension_case_counterexample :
    path_a_big_rs.isDir = false ∧
    path_a_big_rs.extension = some "RS" ∧
    "RS".toList.map Char.toLower = "rs".toList ∧
    ExtensionFilter.filter (ExtensionFilter.new "rs") path_a_big_rs =
      FilterResult.reject ∧
    FilterResult.reject ≠ FilterResult.accept := by
  refine ⟨rfl, by decide, by decide, by decide, by decide⟩

/-- Claim C4 (amended): the extension predicate compares the trailing
extension case-sensitively: a regular file Accepts exactly when its
extension equals the configured dot-trimmed extension, or the configured
extension is the wildcard star and the file has some extension; the
empty configured extension Accepts exactly the files without any
extension; directories always Accept. -/
theorem extension_filter_spec :
    ∀ (ext : String) (p : FilePath),
      (p.isDir = true →
        ExtensionFilter.filter (ExtensionFilter.new ext) p = FilterResult.accept) ∧
      (p.isDir = false →
        (ExtensionFilter.filter (ExtensionFilter.new ext) p = FilterResult.accept ↔
          (∃ e, p.extension = some e ∧
            (e = (ExtensionFilter.new ext).extension ∨
             (ExtensionFilter.new ext).extension = "*")) ∨
          (p.extension = none ∧ (ExtensionFilter.new ext).extension = ""))) := by
  intro ext p
  constructor
  · intro hd
    simp [ExtensionFilter.filter, hd]
  · intro hd
    simp only [ExtensionFilter.filter, hd, Bool.false_eq_true, if_false]
    cases he : p.extension with
    | none =>
      by_cases hempty : (ExtensionFilter.new ext).extension = ""
      · simp [hempty]
      · simp only [hempty, if_false]
        constructor
        · intro h
          exact absurd h (by decide)
        · rintro (⟨e, he2, hcase⟩ | ⟨hnone, hemp⟩)
          · exact absurd he2 (by simp)
          · exact hemp.elim
    | some e =>
      by_cases hm : e = (ExtensionFilter.new ext).extension ∨
          (ExtensionFilter.new ext).extension = "*"
      · simp only [if_pos hm]
        constructor
        · intro _
          exact Or.inl ⟨e, rfl, hm⟩
        · intro _
          trivial
      · simp only [if_neg hm]
        constructor
        · intro h
          exact absurd h (by decide)
        · rintro (⟨m, hm2, hcase⟩ | ⟨hnone, _⟩)
          · rw [Option.some.injEq] at hm2
            subst hm2
            exact absurd hcase hm
          · exact absurd hnone (by simp)

/-- Witness for extension_filter_spec: a matching rs file is Accepted. -/
theorem extension_filter_spec_witness :
    ExtensionFilter.filter (ExtensionFilter.new "rs") ⟨["b.rs"], false, none⟩ =
      FilterResult.accept :=
  ((extension_filter_spec "rs" ⟨["b.rs"], false, none⟩).2 rfl).mpr
    (Or.inl ⟨"rs", by decide, Or.inl (by decide)⟩)

/-- Claim C8 (code bug): the size-range and date-range predicates do NOT
special-case directories — they apply their range checks to the
directory metadata itself.  The repository test suite documents the
intended behavior (tests/filters_test.rs:124, Directories are never
filtered by size, asserting Accept): on a directory whose metadata
length is 40 bytes (an empty directory on tmpfs), SizeFilter::min(1000)
returns Reject, and a DateFilter whose newer_than bound exceeds the
directory modification time also returns Reject. -/
theorem size_date_directory_rejected :
    dir_small.isDir = true ∧
    SizeFilter.filter (SizeFilter.min 1000) dir_small = FilterResult.reject ∧
    DateFilter.filter ⟨some 2000000, none⟩ dir_small = FilterResult.reject := by
  refine ⟨rfl, by decide, by decide⟩

/-- Claim C9: for every path whose metadata cannot be read, the
metadata-reading predicates return Reject; both filter functions are
total, so predicate evaluation never propagates an error or aborts the
search. -/
theorem metadata_error_rejects :
    ∀ (sf : SizeFilter) (df : DateFilter) (p : FilePath),
      p.metadata = none →
      SizeFilter.filter sf p = FilterResult.reject ∧
      DateFilter.filter df p = FilterResult.reject := by
  intro sf df p h
  constructor <;> simp [SizeFilter.filter, DateFilter.filter, h]

/-- Witness for metadata_error_rejects at a concrete unreadable path. -/
theorem metadata_error_rejects_witness :
    SizeFilter.filter (SizeFilter.min 10) ⟨["p"], false, none⟩ =
      FilterResult.reject ∧
    DateFilter.filter ⟨some 0, none⟩ ⟨["p"], false, none⟩ =
      FilterResult.reject :=
  metadata_error_rejects (SizeFilter.min 10) ⟨some 0, none⟩
    ⟨["p"], false, none⟩ rfl

/-- Claim C10: cloning a TrackingObserver copies its file and directory
counters but produces an empty found-files list, so for every observer
that has recorded n greater than 0 matched files the clone reports
files_count n while its found-files list has length 0, violating the
count-equals-list-length correspondence that the original observer
satisfies under file_found notifications. -/
theorem tracking_clone_snapshot :
    ∀ (ps : List FilePath) (t : TrackingObserver),
      t = ps.foldl TrackingObserver.file_found TrackingObserver.new →
      ps ≠ [] →
      t.files_count = ps.length ∧
      t.files_count = t.found_files.length ∧
      (TrackingObserver.clone t).files_count = ps.length ∧
      (TrackingObserver.clone t).dirs_count = t.dirs_count ∧
      (TrackingObserver.clone t).found_files.length = 0 ∧
      (TrackingObserver.clone t).files_count ≠
        (TrackingObserver.clone t).found_files.length := by
  intro ps t ht hne
  have hfold := foldl_file_found_spec ps TrackingObserver.new
  have hcount : t.files_count = ps.length := by
    rw [ht, hfold.2.1]
    simp [TrackingObserver.new]
  have hfiles : t.found_files = ps := by
    rw [ht, hfold.1]
    simp [TrackingObserver.new]
  have hclone := clone_spec t
  refine ⟨hcount, ?_, ?_, hclone.2.1, ?_, ?_⟩
  · rw [hcount, hfiles]
  · rw [hclone.1, hcount]
  · rw [hclone.2.2]; rfl
  · rw [hclone.1, hclone.2.2, hcount]
    simpa using hne

/-- Witness for tracking_clone_snapshot after one recorded file. -/
theorem tracking_clone_snapshot_witness :
    (TrackingObserver.clone
      ([path_main_rs].foldl TrackingObserver.file_found TrackingObserver.new)
      ).files_count = 1 ∧
    (TrackingObserver.clone
      ([path_main_rs].foldl TrackingObserver.file_found TrackingObserver.new)
      ).found_files.length = 0 :=
  ⟨(tracking_clone_snapshot [path_main_rs] _ rfl (by decide)).2.2.1,
   (tracking_clone_snapshot [path_main_rs] _ rfl (by decide)).2.2.2.2.1⟩

/-- Helper: with a depth cap of 1 and an empty depth vector, the entry
loop cannot descend anywhere, so it emits exactly the direct files. -/
theorem process_entries_depth_one (config : FinderConfig) (ts : TraversalStrategy)
    (reg : List PathFilter) (h : config.max_depth = some 1) :
    ∀ (dirC : List String) (entries : List FSEntry),
      process_entries config ts reg dirC entries [] =
        direct_files config ts reg dirC entries := by
  intro dirC entries
  induction entries generalizing dirC with
  | nil => simp [process_entries, direct_files]
  | cons e rest ih =>
    have hd : ∀ (name : String), depth_exceeded config ([] ++ [name]) = true := by
      intro name
      simp [depth_exceeded, h]
    cases e with
    | file name meta =>
      simp only [process_entries, direct_files, List.map_cons, List.flatten_cons]
      rw [ih dirC]
      rfl
    | dir name meta es =>
      simp only [process_entries, direct_files, List.map_cons, List.flatten_cons,
        hd name, if_true]
      rw [ih dirC]
      rfl
    | symlinkFile name tpath tmeta =>
      simp only [process_entries, direct_files, List.map_cons, List.flatten_cons]
      rw [ih dirC]
      rfl
    | symlinkDir name tpath tmeta tes =>
      simp only [process_entries, direct_files, List.map_cons, List.flatten_cons,
        hd name, if_true]
      rw [ih dirC]
      by_cases hfl : config.follow_links <;> simp [hfl, direct_files]
    | symlinkBroken name =>
      simp only [process_entries, direct_files, List.map_cons, List.flatten_cons]
      rw [ih dirC]
      rfl

/-- Claim C5 counterexample: with max_depth = Some(0) the depth check at
the top of process_directory fires already for the root (0 >= 0), so a
root containing the single file a.rs yields no results at all, although
the claim promises exactly the files directly inside the root. -/
theorem max_depth_zero_counterexample :
    process_directory (cfg_depth (some 0)) ts_all [] root_fp
      [FSEntry.file "a.rs" none] [] = [] ∧
    process_directory (cfg_depth (some 0)) ts_all [] root_fp
      [FSEntry.file "a.rs" none] [] ≠ [⟨["root", "a.rs"], false, none⟩] := by
  have h : process_directory (cfg_depth (some 0)) ts_all [] root_fp
      [FSEntry.file "a.rs" none] [] = [] := by
    unfold process_directory
    have hd : depth_exceeded (cfg_depth (some 0)) [] = true := by decide
    rw [hd]
    simp
  exact ⟨h, by rw [h]; decide⟩

/-- Claim C5 (amended): with max_depth = Some(d) the root is depth 0 and
a directory at depth e is scanned only when e is strictly below d; in
particular Some(0) scans nothing at all and returns no files, and
Some(1) considers exactly the files directly inside the root without
descending into any subdirectory.  The fallback collect_files_direct has
the same boundary: it returns nothing once current_depth has reached
max_depth. -/
theorem max_depth_semantics :
    ∀ (config : FinderConfig) (ts : TraversalStrategy) (reg : List PathFilter)
      (dir_path : FilePath) (entries : List FSEntry) (depth : List String),
      (config.max_depth = some 0 →
        process_directory config ts reg dir_path entries depth = []) ∧
      (config.max_depth = some 1 →
        process_directory config ts reg dir_path entries [] =
          if ts.should_process_directory dir_path then
            direct_files config ts reg dir_path.components entries
          else []) ∧
      (∀ (max_depth current_depth : Nat), current_depth ≥ max_depth →
        collect_files_direct ts reg dir_path entries max_depth current_depth = []) := by
  intro config ts reg dir_path entries depth
  refine ⟨?_, ?_, ?_⟩
  · intro h0
    unfold process_directory
    have hd : depth_exceeded config depth = true := by simp [depth_exceeded, h0]
    rw [hd]
    simp
  · intro h1
    unfold process_directory
    have hd : depth_exceeded config [] = false := by simp [depth_exceeded, h1]
    rw [hd]
    by_cases hs : ts.should_process_directory dir_path
    · simp [hs, process_entries_depth_one config ts reg h1]
    · simp [hs]
  · intro md cd hge
    unfold collect_files_direct
    simp [hge]

/-- Witness for max_depth_semantics: with max_depth = Some(1) over a root
holding a.rs and a subdirectory holding c.rs, exactly the direct file is
returned and the subdirectory is not descended. -/
theorem max_depth_semantics_witness :
    process_directory (cfg_depth (some 1)) ts_all [] root_fp
      [FSEntry.file "a.rs" none,
       FSEntry.dir "sub" none [FSEntry.file "c.rs" none]] [] =
      [⟨["root", "a.rs"], false, none⟩] := by
  have h := (max_depth_semantics (cfg_depth (some 1)) ts_all [] root_fp
    [FSEntry.file "a.rs" none,
     FSEntry.dir "sub" none [FSEntry.file "c.rs" none]] []).2.1 rfl
  rw [h]
  decide

/-- Claim C6 counterexample: complete() sends exactly one Done token onto
each channel in total, independent of the worker count.  For a pool with
two workers the claim requires one Done per worker — two per channel —
but starting from empty channels each channel holds a single Done. -/
theorem complete_done_count_counterexample :
    (WorkerPool.complete ⟨[], []⟩).dirQ = [WorkerMessage.done] ∧
    (WorkerPool.complete ⟨[], []⟩).fileQ = [WorkerMessage.done] ∧
    (WorkerPool.complete ⟨[], []⟩).dirQ.length ≠ 2 := by
  refine ⟨rfl, rfl, by decide⟩

/-- Claim C6 (amended): complete() sends exactly one Done token onto each
of the two channels, regardless of the worker count; every worker that
receives a Done from a channel forwards exactly one Done onto that same
channel, consumes no work item in that iteration, and exits its loop, so
the single token per channel relays through the workers. -/
theorem done_relay_protocol :
    ∀ (ch : Channels),
      ((WorkerPool.complete ch).dirQ = ch.dirQ ++ [WorkerMessage.done] ∧
       (WorkerPool.complete ch).fileQ = ch.fileQ ++ [WorkerMessage.done]) ∧
      (∀ rest, ch.dirQ = WorkerMessage.done :: rest →
        worker_step ch =
          ⟨⟨rest ++ [WorkerMessage.done], ch.fileQ⟩, true, [], []⟩) ∧
      (∀ rest, ch.dirQ = [] → ch.fileQ = WorkerMessage.done :: rest →
        worker_step ch =
          ⟨⟨[], rest ++ [WorkerMessage.done]⟩, true, [], []⟩) := by
  intro ch
  refine ⟨⟨rfl, rfl⟩, ?_, ?_⟩
  · intro rest hd
    simp only [worker_step, hd]
  · intro rest hd hf
    simp only [worker_step, worker_file_phase, hd, hf]

/-- Witness for done_relay_protocol: one worker receiving Done from the
directory channel forwards it and exits. -/
theorem done_relay_protocol_witness :
    worker_step ⟨[WorkerMessage.done], []⟩ =
      ⟨⟨[WorkerMessage.done], []⟩, true, [], []⟩ :=
  (done_relay_protocol ⟨[WorkerMessage.done], []⟩).2.1 [] rfl

/-- Claim C7 counterexample: in files-with-matches mode nothing tracks
already-printed paths, so a path occurring twice in the input file list
is printed twice, not at most once. -/
theorem grep_duplicate_counterexample :
    process_files grep_cfg_files rm_world view_hello [xt_path, xt_path] [] =
      Except.ok ["x.txt", "x.txt"] ∧
    ¬ List.count "x.txt" ["x.txt", "x.txt"] ≤ 1 := by
  refine ⟨rfl, by decide⟩

/-- Helper: when the open result is not a propagated I/O error,
search_file returns ok with the matched lines. -/
theorem search_file_of_succeeds (rmatch : String → Bool) (view : OpenResult)
    (h : search_succeeds view = true) :
    search_file rmatch view = Except.ok (ok_matches rmatch view) := by
  cases view with
  | ok lines => rfl
  | permissionDenied => rfl
  | ioError msg => simp [search_succeeds] at h

/-- Helper: when every file searches successfully, the process_files
loop emits the concatenation of the per-entry blocks, one block per
occurrence in the input list. -/
theorem process_files_loop_blocks (cfg : GrepConfig) (rmatch : String → Bool)
    (view : List String → OpenResult) :
    ∀ (files : List (List String)),
      (∀ f ∈ files, search_succeeds (view f) = true) →
      process_files_loop cfg rmatch view files =
        Except.ok (List.flatten (files.map (grep_block cfg rmatch view))) := by
  intro files hok
  induction files with
  | nil => rfl
  | cons fp rest ih =>
    have h1 : search_succeeds (view fp) = true := hok fp (by simp)
    have h2 : ∀ f ∈ rest, search_succeeds (view f) = true := fun f hf =>
      hok f (by simp [hf])
    rw [process_files_loop, search_file_of_succeeds rmatch (view fp) h1, ih h2]
    simp only [List.map_cons, List.flatten_cons]
    rfl

/-- Helper: in files-with-matches mode the concatenated blocks are one
displayed path per input-list occurrence that has a match. -/
theorem grep_blocks_files_only (cfg : GrepConfig) (rmatch : String → Bool)
    (view : List String → OpenResult) (hfwm : cfg.files_with_matches = true) :
    ∀ (files : List (List String)),
      List.flatten (files.map (grep_block cfg rmatch view)) =
        (files.filter fun fp => !(ok_matches rmatch (view fp)).isEmpty).map
          display := by
  intro files
  induction files with
  | nil => rfl
  | cons fp rest ih =>
    simp only [List.map_cons, List.flatten_cons, List.filter_cons]
    by_cases he : (ok_matches rmatch (view fp)).isEmpty
    · simp [grep_block, he, hfwm, ih]
    · simp [grep_block, he, hfwm, ih]

/-- Claim C7 (amended): grep reporting performs no duplicate
suppression.  When every file searches successfully, the output is the
concatenation of one independent block per occurrence of a path in the
input list: in files-with-matches mode each occurrence with at least one
match prints the bare path once (so a path occurring twice is printed
twice); in per-line mode each occurrence with matches prints its path
header exactly once, immediately followed by all its matching lines
consecutively and a trailing blank line. -/
theorem grep_reporting_spec :
    ∀ (cfg : GrepConfig) (rmatch : String → Bool)
      (view : List String → OpenResult) (files : List (List String))
      (summary : List String),
      cfg.show_progress = false →
      (∀ f ∈ files, search_succeeds (view f) = true) →
      (process_files cfg rmatch view files summary =
        Except.ok (List.flatten (files.map (grep_block cfg rmatch view)))) ∧
      (cfg.files_with_matches = true →
        List.flatten (files.map (grep_block cfg rmatch view)) =
          (files.filter fun fp => !(ok_matches rmatch (view fp)).isEmpty).map
            display) := by
  intro cfg rmatch view files summary hsp hok
  constructor
  · unfold process_files
    rw [process_files_loop_blocks cfg rmatch view files hok]
    simp [hsp]
  · intro hfwm
    exact grep_blocks_files_only cfg rmatch view hfwm files

/-- Witness for grep_reporting_spec: a per-line-mode run over one file
prints the header once, the matching line with its number, and a blank
line. -/
theorem grep_reporting_spec_witness :
    process_files grep_cfg_lines rm_world view_hello [xt_path] [] =
      Except.ok ["x.txt", "1: hello world", ""] := by
  have h := (grep_reporting_spec grep_cfg_lines rm_world view_hello [xt_path] []
    rfl (fun f _ => rfl)).1
  rw [h]
  rfl
